import Mathlib

/-!
Shallow embedding of `scripts/extract_mermaid_samples.py` and
`scripts/verify_samples.py` from the `mermaid_parser` repository.

Text is modelled as `List Char`.  Python's regex scans (`re.finditer`) are
modelled as fuel-bounded left-to-right scanners; every pattern that occurs in
the source is a literal-anchored pattern whose backtracking behaviour is
deterministic, so each scanner below mirrors the leftmost, non-overlapping
match semantics of `finditer` directly.
-/

abbrev Str := List Char

/-- The six ASCII whitespace characters stripped by Python's `str.strip` and
matched by the regex class `\s` (all whitespace appearing in this development
is ASCII). -/
def pyIsSpace (c : Char) : Bool :=
  c = ' ' || c = '\t' || c = '\n' || c = '\r' || c = Char.ofNat 11 || c = Char.ofNat 12

/-- Python `str.strip()`. -/
def pyStrip (s : Str) : Str :=
  ((s.dropWhile pyIsSpace).reverse.dropWhile pyIsSpace).reverse

/-- Python `str.lower()` (ASCII case folding; every keyword in the source is
ASCII). -/
def pyLower (s : Str) : Str := s.map Char.toLower

/-- `content[:k].count('\n')` is `countNl (content.take k)`. -/
def countNl (s : Str) : Nat := s.countP (fun c => c = '\n')

/-- One anchored pattern of `detect_diagram_type`'s table: `^kw` or `^kw\s`. -/
inductive Anchor where
  | lit   (kw : Str)
  | litWs (kw : Str)
deriving DecidableEq

def Anchor.kw : Anchor → Str
  | .lit k => k
  | .litWs k => k

def Anchor.matchesAt : Anchor → Str → Bool
  | .lit k, s => k.isPrefixOf s
  | .litWs k, s =>
      k.isPrefixOf s &&
        (match s.drop k.length with
         | c :: _ => pyIsSpace c
         | [] => false)

/-- The ordered `type_patterns` table of `detect_diagram_type`, in source
order. -/
def type_patterns : List (Str × List Anchor) :=
  [ ("flowchart".data, [Anchor.litWs "flowchart".data, Anchor.litWs "graph".data]),
    ("sequence".data,  [Anchor.lit "sequencediagram".data]),
    ("gantt".data,     [Anchor.lit "gantt".data]),
    ("class".data,     [Anchor.lit "classdiagram".data]),
    ("state".data,     [Anchor.lit "statediagram".data]),
    ("pie".data,       [Anchor.lit "pie".data]),
    ("git".data,       [Anchor.lit "gitgraph".data]),
    ("journey".data,   [Anchor.lit "journey".data]),
    ("c4".data,        [Anchor.lit "c4context".data, Anchor.lit "c4container".data,
                        Anchor.lit "c4component".data, Anchor.lit "c4dynamic".data,
                        Anchor.lit "c4deployment".data]),
    ("er".data,        [Anchor.lit "erdiagram".data]),
    ("architecture".data, [Anchor.lit "architecture".data]),
    ("timeline".data,  [Anchor.lit "timeline".data]),
    ("kanban".data,    [Anchor.lit "kanban".data]),
    ("radar".data,     [Anchor.lit "radar".data]),
    ("treemap".data,   [Anchor.lit "treemap".data]),
    ("sankey".data,    [Anchor.lit "sankey".data]),
    ("quadrant".data,  [Anchor.lit "quadrant".data]),
    ("xy".data,        [Anchor.lit "xychart".data]),
    ("packet".data,    [Anchor.lit "packet".data]),
    ("requirement".data, [Anchor.lit "requirement".data]),
    ("block".data,     [Anchor.lit "block".data]),
    ("mindmap".data,   [Anchor.lit "mindmap".data]) ]

/-- `detect_diagram_type` from the source: lower-case and strip the snippet,
then scan the table in order, the first entry one of whose anchors matches
winning; no match yields `misc`. -/
def detect_diagram_type (mermaid_code : Str) : Str :=
  let code_lower := pyStrip (pyLower mermaid_code)
  match type_patterns.find? (fun tp => tp.2.any (fun a => a.matchesAt code_lower)) with
  | some tp => tp.1
  | none => "misc".data

/-- Index of the first occurrence of `pat` in `s`, i.e. Python's `str.find`;
`pat in s` is `(findSub pat s).isSome`. -/
def findSub (pat : Str) : Str → Option Nat
  | [] => if pat.isEmpty then some 0 else none
  | c :: cs => if pat.isPrefixOf (c :: cs) then some 0 else (findSub pat cs).map (· + 1)

/-- Python's substring operator `pat in s`. -/
def pyIn (pat s : Str) : Bool := (findSub pat s).isSome

/-- Decimal digits of `n`, for the f-string interpolations. -/
def natStr (n : Nat) : Str := (Nat.repr n).data

/-- The line-number locator suffix shared by all extractors:
`f"{file_path}:L{line_num}"` with `line_num = content[:start].count('\n') + 1`. -/
def locatorOf (file_path content : Str) (start : Nat) : Str :=
  file_path ++ ":L".data ++ natStr (countNl (content.take start) + 1)

/-- Scanner for the markdown pattern ```` ```mermaid\n(.*?)\n``` ```` under
`re.DOTALL`: leftmost opening fence, lazily matched body up to the nearest
closing fence, resuming after the match (the non-overlapping `finditer`
semantics).  Returns `(group 1, match start)` pairs; positions are absolute
thanks to the running `pos`. -/
def mdScan : Nat → Str → Nat → List (Str × Nat)
  | 0, _, _ => []
  | fuel + 1, s, pos =>
    match findSub "```mermaid\n".data s with
    | none => []
    | some o =>
      let rest := s.drop (o + 11)
      match findSub "\n```".data rest with
      | none => []
      | some k =>
        let consumed := o + 11 + k + 4
        (rest.take k, pos + o) :: mdScan fuel (s.drop consumed) (pos + consumed)

/-- `extract_mermaid_from_markdown` from the source: each match's first group
is stripped, paired with the `<path>:L<line>` locator, and numbered by the
`enumerate` index. -/
def extract_mermaid_from_markdown (content : Str) (file_path : Str) :
    List (Str × Str × Nat) :=
  (mdScan (content.length + 1) content 0).enum.map
    (fun p => (pyStrip p.2.1, locatorOf file_path content p.2.2, p.1))

/-- The double-quote, single-quote and backquote characters of the regex
quote class. -/
def dqCh : Char := Char.ofNat 34

def sqCh : Char := Char.ofNat 39

def bqCh : Char := Char.ofNat 96

def isQuoteCh (c : Char) : Bool := c = dqCh || c = sqCh || c = bqCh

/-- The diagram keywords of the extraction regexes, in the alternation order
of the source (case-sensitive, unlike the classifier's table). -/
def kwList : List Str :=
  [ "graph".data, "flowchart".data, "sequenceDiagram".data, "gantt".data,
    "classDiagram".data, "stateDiagram".data, "pie".data, "gitGraph".data,
    "journey".data, "C4Context".data, "C4Container".data, "C4Component".data,
    "C4Dynamic".data, "C4Deployment".data, "erDiagram".data, "architecture".data,
    "timeline".data, "kanban".data, "radar".data, "treemap".data, "sankey".data,
    "quadrant".data, "xychart".data, "packet".data, "requirement".data,
    "block".data, "mindmap".data ]

def findKw (s : Str) : Option Str := kwList.find? (fun kw => kw.isPrefixOf s)

/-- Scanner for the quoted-literal pattern
`['"`]((?:graph|flowchart|...|mindmap).*?)['"`]` under `re.DOTALL`: an opening
quote character, a keyword, then the lazy group runs to the nearest following
quote character of any kind.  A start position whose opening quote has no
later closing quote fails and the scan resumes at the next character, as
`finditer` does. -/
def scanP1 : Nat → Str → Nat → List (Str × Nat)
  | 0, _, _ => []
  | _ + 1, [], _ => []
  | fuel + 1, c :: rest, pos =>
    if isQuoteCh c then
      match findKw rest with
      | some kw =>
        let after := rest.drop kw.length
        match after.findIdx? isQuoteCh with
        | some q =>
          (kw ++ after.take q, pos) :: scanP1 fuel (after.drop (q + 1)) (pos + 1 + kw.length + q + 1)
        | none => scanP1 fuel rest (pos + 1)
      | none => scanP1 fuel rest (pos + 1)
    else scanP1 fuel rest (pos + 1)

/-- Scanner for `mermaid:\s*['"`](.*?)['"`]` under `re.DOTALL`.  The greedy
`\s*` cannot backtrack usefully because no quote character is whitespace, so
the match is the maximal whitespace run followed by a quote. -/
def scanP2 : Nat → Str → Nat → List (Str × Nat)
  | 0, _, _ => []
  | _ + 1, [], _ => []
  | fuel + 1, c :: rest, pos =>
    if "mermaid:".data.isPrefixOf (c :: rest) then
      let afterColon := (c :: rest).drop 8
      let ws := (afterColon.takeWhile pyIsSpace).length
      match afterColon.drop ws with
      | q :: afterQ =>
        if isQuoteCh q then
          match afterQ.findIdx? isQuoteCh with
          | some k =>
            (afterQ.take k, pos) :: scanP2 fuel (afterQ.drop (k + 1)) (pos + 8 + ws + 1 + k + 1)
          | none => scanP2 fuel rest (pos + 1)
        else scanP2 fuel rest (pos + 1)
      | [] => scanP2 fuel rest (pos + 1)
    else scanP2 fuel rest (pos + 1)

/-- Scanner for `content:\s*['"`]((?:graph|...|mindmap).*?)['"`]` under
`re.DOTALL`; like `scanP1` behind a `content:` label. -/
def scanP3 : Nat → Str → Nat → List (Str × Nat)
  | 0, _, _ => []
  | _ + 1, [], _ => []
  | fuel + 1, c :: rest, pos =>
    if "content:".data.isPrefixOf (c :: rest) then
      let afterColon := (c :: rest).drop 8
      let ws := (afterColon.takeWhile pyIsSpace).length
      match afterColon.drop ws with
      | q :: afterQ =>
        if isQuoteCh q then
          match findKw afterQ with
          | some kw =>
            let after := afterQ.drop kw.length
            match after.findIdx? isQuoteCh with
            | some k =>
              (kw ++ after.take k, pos) ::
                scanP3 fuel (after.drop (k + 1)) (pos + 8 + ws + 1 + kw.length + k + 1)
            | none => scanP3 fuel rest (pos + 1)
          | none => scanP3 fuel rest (pos + 1)
        else scanP3 fuel rest (pos + 1)
      | [] => scanP3 fuel rest (pos + 1)
    else scanP3 fuel rest (pos + 1)

/-- Python `str.replace` (all non-overlapping occurrences, left to right);
fuel-bounded, with `s.length + 1` fuel always sufficient for non-empty `pat`. -/
def replaceAllAux (pat repl : Str) : Nat → Str → Str
  | 0, s => s
  | _ + 1, [] => []
  | fuel + 1, c :: rest =>
    if !pat.isEmpty && pat.isPrefixOf (c :: rest) then
      repl ++ replaceAllAux pat repl fuel ((c :: rest).drop pat.length)
    else c :: replaceAllAux pat repl fuel rest

def pyReplace (s pat repl : Str) : Str := replaceAllAux pat repl (s.length + 1) s

/-- The escape clean-up of `extract_mermaid_from_js`:
`.replace('\\n', '\n').replace('\\"', '"').replace("\\'", "'")`. -/
def unescapeJs (s : Str) : Str :=
  pyReplace (pyReplace (pyReplace s ['\\', 'n'] ['\n']) ['\\', dqCh] [dqCh]) ['\\', sqCh] [sqCh]

/-- `extract_mermaid_from_js` from the source: the three regex passes run over
the whole content in order, appending to one list, so the running
`sample_count` equals the enumeration index of the concatenated match list;
each group is stripped and then escape-cleaned. -/
def extract_mermaid_from_js (content : Str) (file_path : Str) :
    List (Str × Str × Nat) :=
  let raw := scanP1 (content.length + 1) content 0 ++ scanP2 (content.length + 1) content 0
      ++ scanP3 (content.length + 1) content 0
  raw.enum.map (fun p => (unescapeJs (pyStrip p.2.1), locatorOf file_path content p.2.2, p.1))

/-- Case-insensitive character comparison, for the `re.IGNORECASE` pass of the
HTML extractor (its literals are ASCII). -/
def ciEq (a b : Char) : Bool := a.toLower = b.toLower

def ciIsPrefixOf : Str → Str → Bool
  | [], _ => true
  | _ :: _, [] => false
  | a :: ta, b :: tb => ciEq a b && ciIsPrefixOf ta tb

def ciFindSub (pat : Str) : Str → Option Nat
  | [] => if pat.isEmpty then some 0 else none
  | c :: cs => if ciIsPrefixOf pat (c :: cs) then some 0 else (ciFindSub pat cs).map (· + 1)

/-- Scanner for `<div[^>]*class="mermaid"[^>]*>(.*?)</div>` under
`re.DOTALL | re.IGNORECASE`.  Because `[^>]*` cannot cross a `>`, a match at
a given start consists of `<div`, the region up to the first following `>`
(which must contain the literal `class="mermaid"`), then the lazy body up to
the nearest `</div>`. -/
def scanH1 : Nat → Str → Nat → List (Str × Nat)
  | 0, _, _ => []
  | _ + 1, [], _ => []
  | fuel + 1, c :: rest, pos =>
    if ciIsPrefixOf "<div".data (c :: rest) then
      let afterDiv := (c :: rest).drop 4
      match afterDiv.findIdx? (fun ch => ch = '>') with
      | some g =>
        if (ciFindSub ("class=".data ++ [dqCh] ++ "mermaid".data ++ [dqCh]) (afterDiv.take g)).isSome then
          let afterGt := afterDiv.drop (g + 1)
          match ciFindSub "</div>".data afterGt with
          | some e =>
            (afterGt.take e, pos) :: scanH1 fuel (afterGt.drop (e + 6)) (pos + 4 + g + 1 + e + 6)
          | none => scanH1 fuel rest (pos + 1)
        else scanH1 fuel rest (pos + 1)
      | none => scanH1 fuel rest (pos + 1)
    else scanH1 fuel rest (pos + 1)

/-- `re.sub(r'\s+', ' ', s)`: every maximal whitespace run becomes one space. -/
def collapseWsAux : Nat → Str → Str
  | 0, s => s
  | _ + 1, [] => []
  | fuel + 1, c :: rest =>
    if pyIsSpace c then ' ' :: collapseWsAux fuel (rest.dropWhile pyIsSpace)
    else c :: collapseWsAux fuel rest

def collapseWs (s : Str) : Str := collapseWsAux (s.length + 1) s

/-- The HTML-entity clean-up of the first HTML pass:
`.replace('&lt;', '<').replace('&gt;', '>').replace('&amp;', '&')`. -/
def decodeEntities (s : Str) : Str :=
  pyReplace (pyReplace (pyReplace s "&lt;".data "<".data) "&gt;".data ">".data)
    "&amp;".data "&".data

def isWordCh (c : Char) : Bool := c.isAlphanum || c = '_'

/-- Length of `\s+\w+\s*=\s*` after an assignment keyword of length `kwlen`,
if it matches (each sub-pattern is over a character class disjoint from its
neighbour, so greedy matching is deterministic). -/
def leadFrom (kwlen : Nat) (s : Str) : Option Nat :=
  let t1 := s.drop kwlen
  let w1 := (t1.takeWhile pyIsSpace).length
  if w1 = 0 then none else
  let t2 := t1.drop w1
  let w2 := (t2.takeWhile isWordCh).length
  if w2 = 0 then none else
  let t3 := t2.drop w2
  let w3 := (t3.takeWhile pyIsSpace).length
  match t3.drop w3 with
  | '=' :: t4 => some (kwlen + w1 + w2 + w3 + 1 + (t4.takeWhile pyIsSpace).length)
  | _ => none

/-- The optional `(?:var\s+\w+\s*=\s*|const\s+\w+\s*=\s*)?` lead of the second
HTML pass: the number of characters it consumes, when it matches. -/
def assignLead (s : Str) : Option Nat :=
  if "var".data.isPrefixOf s then leadFrom 3 s
  else if "const".data.isPrefixOf s then leadFrom 5 s
  else none

/-- Scanner for the second HTML pass (case-sensitive, `re.DOTALL`): an
optional `var`/`const` assignment lead, then a quoted keyword literal as in
`scanP1`.  When the lead matches but no quote follows it, the empty
alternative of the optional group also fails (the start character is then a
letter, not a quote), so the scan resumes at the next character. -/
def scanH2 : Nat → Str → Nat → List (Str × Nat)
  | 0, _, _ => []
  | _ + 1, [], _ => []
  | fuel + 1, c :: rest, pos =>
    let j := (assignLead (c :: rest)).getD 0
    match (c :: rest).drop j with
    | q :: afterQ =>
      if isQuoteCh q then
        match findKw afterQ with
        | some kw =>
          let after := afterQ.drop kw.length
          match after.findIdx? isQuoteCh with
          | some k =>
            (kw ++ after.take k, pos) :: scanH2 fuel (after.drop (k + 1)) (pos + j + 1 + kw.length + k + 1)
          | none => scanH2 fuel rest (pos + 1)
        | none => scanH2 fuel rest (pos + 1)
      else scanH2 fuel rest (pos + 1)
    | [] => scanH2 fuel rest (pos + 1)

/-- `extract_mermaid_from_html` from the source: the `<div class="mermaid">`
pass (stripped, whitespace-collapsed, entity-decoded bodies) followed by the
quoted-literal pass (stripped bodies), the running `sample_count` continuing
across the two passes, i.e. enumerating the concatenated match list. -/
def extract_mermaid_from_html (content : Str) (file_path : Str) :
    List (Str × Str × Nat) :=
  let part1 := (scanH1 (content.length + 1) content 0).map
      (fun p => (decodeEntities (collapseWs (pyStrip p.1)), p.2))
  let part2 := (scanH2 (content.length + 1) content 0).map (fun p => (pyStrip p.1, p.2))
  (part1 ++ part2).enum.map
    (fun p => (p.2.1, locatorOf file_path content p.2.2, p.1))

/-- `split(':')[0]` then `split('/')[-1]` then `replace('.', '_')`: the
`source_file` computation of `save_mermaid_sample`. -/
def sourceBaseName (source_info : Str) : Str :=
  ((source_info.takeWhile (fun c => c ≠ ':')).reverse.takeWhile (fun c => c ≠ '/')).reverse.map
    (fun c => if c = '.' then '_' else c)

/-- `f"{sample_index:03d}"`: decimal digits left-padded with zeros to width 3. -/
def pad3 (n : Nat) : Str := List.replicate (3 - (natStr n).length) '0' ++ natStr n

/-- `save_mermaid_sample` from the source, as the `(path, bytes)` pair that
its `open(...).write(...)` produces; the source returns the path and performs
the write against the real filesystem. -/
def save_mermaid_sample (mermaid_code diagram_type source_info : Str)
    (sample_index : Nat) : Str × Str :=
  let source_file := sourceBaseName source_info
  let filename := source_file ++ "_".data ++ pad3 sample_index ++ ".mermaid".data
  let output_path := "mermaid-samples/".data ++ diagram_type ++ "/".data ++ filename
  let header := "// Source: ".data ++ source_info ++ "\n// Type: ".data ++ diagram_type
      ++ "\n// Generated by mermaid sample extractor\n\n".data
  (output_path, header ++ mermaid_code ++ "\n".data)

/-- `pathlib.PurePath.suffix` for POSIX paths: the last dot-suffix of the
final path component, empty for names whose only dot is leading or trailing. -/
def pySuffix (path : Str) : Str :=
  let nm := (path.reverse.takeWhile (fun c => c ≠ '/')).reverse
  match (nm.enum.foldl (fun acc p => if p.2 = '.' then some p.1 else acc) none : Option Nat) with
  | some i => if 0 < i ∧ i + 1 < nm.length then nm.drop i else []
  | none => []

/-- The extension dispatch of `process_file`: which extractor runs, and the
whole-file candidate for direct `.mermaid` files. -/
def candidatesOf (file_path : Str) (content : Str) : List (Str × Str × Nat) :=
  let sfx := pySuffix file_path
  if sfx = ".md".data ∨ sfx = ".markdown".data then
    extract_mermaid_from_markdown content file_path
  else if sfx = ".html".data ∨ sfx = ".htm".data then
    extract_mermaid_from_html content file_path
  else if sfx = ".js".data ∨ sfx = ".ts".data ∨ sfx = ".jsx".data ∨ sfx = ".tsx".data then
    extract_mermaid_from_js content file_path
  else if sfx = ".mermaid".data then [(pyStrip content, file_path, 0)]
  else []

/-- The orchestration filter of `process_file`:
`if mermaid_code and len(mermaid_code.strip()) > 0`. -/
def keptCandidates (file_path content : Str) : List (Str × Str × Nat) :=
  (candidatesOf file_path content).filter
    (fun t => !t.1.isEmpty && !(pyStrip t.1).isEmpty)

/-- `process_file` from the source, over an explicit read result: a failed
read is caught, logged and yields no samples; a successful read extracts,
filters, classifies and saves, producing the list of writes performed. -/
def process_file (file_path : Str) (readResult : Except Unit Str) : List (Str × Str) :=
  match readResult with
  | .error _ => []
  | .ok content =>
    (keptCandidates file_path content).map
      (fun t => save_mermaid_sample t.1 (detect_diagram_type t.1) t.2.1 t.2.2)

/-- The exclusion list of `main`. -/
def excludedParts : List Str :=
  ["node_modules".data, ".git".data, "dist".data, "build".data]

/-- `any(part in str(file_path) for part in [...])`: a plain substring test
against the whole path string. -/
def shouldSkip (file_path : Str) : Bool :=
  excludedParts.any (fun part => pyIn part file_path)

/-- The extension allow-list of `main`. -/
def extensionsList : List Str :=
  [".md".data, ".markdown".data, ".html".data, ".htm".data, ".js".data,
   ".ts".data, ".jsx".data, ".tsx".data, ".mermaid".data]

/-- The per-file guard of `main`'s walk: extension selected and no excluded
part, then `process_file`. -/
def processEntry (e : Str × Except Unit Str) : List (Str × Str) :=
  if extensionsList.contains (pySuffix e.1) && !shouldSkip e.1 then
    process_file e.1 e.2
  else []

/-- `main`'s walk over a corpus (the `rglob` file list with each file's read
result), concatenating the writes of every processed file. -/
def runPipeline : List (Str × Except Unit Str) → List (Str × Str)
  | [] => []
  | e :: rest => processEntry e ++ runPipeline rest

/-- A filesystem as a map from paths to contents; `applyWrites` performs a
write list in order, later writes to a path silently overwriting earlier
ones, as the source's `open(path, 'w')` does. -/
abbrev FS := Str → Option Str

def applyWrites : List (Str × Str) → FS → FS
  | [], fs => fs
  | w :: ws, fs => applyWrites ws (fun q => if q = w.1 then some w.2 else fs q)

/-- The last write to a path in a write list, if any: the content a reader
finds after the run. -/
def lastWrite : List (Str × Str) → Str → Option Str
  | [], _ => none
  | w :: ws, q =>
    match lastWrite ws q with
    | some c => some c
    | none => if q = w.1 then some w.2 else none

/-- Python `content.split(c)` (all fields kept, including empty ones). -/
def splitOnCh (c : Char) : Str → List Str
  | [] => [[]]
  | d :: rest =>
    if d = c then [] :: splitOnCh c rest
    else
      match splitOnCh c rest with
      | s :: ss => (d :: s) :: ss
      | [] => [[d]]

/-- `check_sample_structure` from `verify_samples.py`, on the file content
(its `valid` field): both labelled header markers occur as substrings, and at
least one line is non-empty and not a `//` comment after stripping. -/
def check_sample_structure (content : Str) : Bool :=
  let has_source := pyIn "Source:".data content
  let has_type := pyIn "Type:".data content
  let lines := splitOnCh '\n' content
  let non_comment_lines := lines.filter
    (fun l => !("//".data.isPrefixOf (pyStrip l)) && !(pyStrip l).isEmpty)
  has_source && has_type && decide (0 < non_comment_lines.length)

/-- Skip everything up to and including the `n`-th newline: the reader of a
sample artifact positions itself after the three header lines and the blank
line. -/
def dropLines : Nat → Str → Str
  | 0, s => s
  | _ + 1, [] => []
  | n + 1, c :: cs => if c = '\n' then dropLines n cs else dropLines (n + 1) cs

/-- Remove one trailing newline, if present. -/
def dropTrailingNl (s : Str) : Str :=
  if s.getLast? = some '\n' then s.dropLast else s

/-- The body a reader recovers from a sample artifact: the content after the
three header lines and the blank line, with the trailing newline removed. -/
def readBody (content : Str) : Str := dropTrailingNl (dropLines 4 content)

/-! ### Evaluation checks on concrete inputs -/

example : detect_diagram_type "pie title X".data = "pie".data := by decide

example : detect_diagram_type "graph TD".data = "flowchart".data := by decide

example : detect_diagram_type "flowchart".data = "misc".data := by decide

example : detect_diagram_type "".data = "misc".data := by decide

example : detect_diagram_type "  SequenceDiagram Z".data = "sequence".data := by decide

example :
    extract_mermaid_from_markdown "intro\n\n```mermaid\ngraph TD\nA-->B\n```\n".data "doc.md".data
      = [("graph TD\nA-->B".data, "doc.md:L3".data, 0)] := by decide

example :
    extract_mermaid_from_js ("graph T".data ++ [sqCh] ++ " D".data ++ [dqCh]) "f.js".data
      = [] := by decide

example :
    extract_mermaid_from_html
        ("<div class=".data ++ [dqCh] ++ "mermaid".data ++ [dqCh] ++ ">pie title X</div>".data)
        "a.html".data
      = [("pie title X".data, "a.html:L1".data, 0)] := by decide

example : pySuffix "a/b.tar.gz".data = ".gz".data := by decide

example : pySuffix "x.mermaid".data = ".mermaid".data := by decide

example :
    check_sample_structure (save_mermaid_sample "graph TD".data "flowchart".data
      "a.md:L1".data 0).2 = true := by decide

example :
    readBody (save_mermaid_sample "graph TD".data "flowchart".data
      "a.md:L1".data 0).2 = "graph TD".data := by decide

/-! ### Generic lemmas about the text helpers -/

theorem isPrefixOf_eq_true_iff (p s : Str) :
    p.isPrefixOf s = true ↔ ∃ t, s = p ++ t := by
  induction p generalizing s with
  | nil => simp [List.isPrefixOf]
  | cons a ta ih =>
    cases s with
    | nil => simp [List.isPrefixOf]
    | cons b tb =>
      simp only [List.isPrefixOf, Bool.and_eq_true, beq_iff_eq, ih, List.cons_append,
        List.cons.injEq]
      constructor
      · rintro ⟨rfl, t, rfl⟩; exact ⟨t, rfl, rfl⟩
      · rintro ⟨t, rfl, rfl⟩; exact ⟨rfl, t, rfl⟩

theorem isPrefixOf_comparable :
    ∀ (s a b : Str), a.isPrefixOf s = true → b.isPrefixOf s = true →
      a.isPrefixOf b = true ∨ b.isPrefixOf a = true := by
  intro s
  induction s with
  | nil =>
    intro a b ha hb
    cases a with
    | nil => exact Or.inl (by simp [List.isPrefixOf])
    | cons x xs => simp [List.isPrefixOf] at ha
  | cons c cs ih =>
    intro a b ha hb
    cases a with
    | nil => exact Or.inl (by simp [List.isPrefixOf])
    | cons x xs =>
      cases b with
      | nil => exact Or.inr (by simp [List.isPrefixOf])
      | cons y ys =>
        simp only [List.isPrefixOf, Bool.and_eq_true, beq_iff_eq] at ha hb ⊢
        obtain ⟨rfl, ha'⟩ := ha
        obtain ⟨rfl, hb'⟩ := hb
        rcases ih xs ys ha' hb' with h | h
        · exact Or.inl ⟨rfl, h⟩
        · exact Or.inr ⟨rfl, h⟩

theorem find?_eq_some_of_unique {α : Type} (p : α → Bool) (l : List α) (x : α)
    (hx : x ∈ l) (hpx : p x = true) (huniq : ∀ y ∈ l, p y = true → y = x) :
    l.find? p = some x := by
  induction l with
  | nil => cases hx
  | cons a t ih =>
    by_cases hpa : p a = true
    · have hax : a = x := huniq a (List.mem_cons_self a t) hpa
      subst hax
      exact List.find?_cons_of_pos t hpa
    · have hx' : x ∈ t := by
        rcases List.mem_cons.mp hx with rfl | h
        · exact absurd hpx hpa
        · exact h
      rw [List.find?_cons_of_neg t hpa]
      exact ih hx' (fun y hy hpy => huniq y (List.mem_cons.mpr (Or.inr hy)) hpy)

/-! ### C1: the classifier -/

theorem Anchor.matchesAt_kw (a : Anchor) (s : Str) (h : a.matchesAt s = true) :
    a.kw.isPrefixOf s = true := by
  cases a with
  | lit k => exact h
  | litWs k => exact (Bool.and_eq_true _ _ |>.mp h).1

/-- Keywords of anchors from entries with different tags are never prefixes
of one another, so at most one table entry can match a given snippet. -/
theorem anchorsIncomp :
    ∀ e1 ∈ type_patterns, ∀ e2 ∈ type_patterns, ∀ a1 ∈ e1.2, ∀ a2 ∈ e2.2,
      e1.1 = e2.1 ∨ a1.kw.isPrefixOf a2.kw = false := by decide

theorem type_patterns_tags_nodup : (type_patterns.map Prod.fst).Nodup := by decide

/-- C1.  `detect_diagram_type` is total and deterministic; every snippet whose
normalised text matches an anchor of the fixed ordered table is routed to that
entry's tag (the entries' anchors are mutually exclusive, so the first match
is the only match); a snippet matching no anchor is routed to `misc`. -/
theorem detect_diagram_type_total_deterministic_table :
    (∀ s t : Str, s = t → detect_diagram_type s = detect_diagram_type t)
    ∧ (∀ s : Str, detect_diagram_type s = "misc".data
        ∨ detect_diagram_type s ∈ type_patterns.map Prod.fst)
    ∧ (∀ s : Str, ∀ e ∈ type_patterns, ∀ a ∈ e.2,
        a.matchesAt (pyStrip (pyLower s)) = true → detect_diagram_type s = e.1)
    ∧ (∀ s : Str, (∀ e ∈ type_patterns, ∀ a ∈ e.2,
        a.matchesAt (pyStrip (pyLower s)) = false) →
        detect_diagram_type s = "misc".data) := by
  refine ⟨fun s t h => by rw [h], fun s => ?_, fun s e he a ha hm => ?_, fun s hno => ?_⟩
  · unfold detect_diagram_type
    cases hf : type_patterns.find?
        (fun tp => tp.2.any (fun a => a.matchesAt (pyStrip (pyLower s)))) with
    | none => simp [hf]
    | some tp =>
      right
      simp only [hf]
      exact List.mem_map.mpr ⟨tp, List.mem_of_find?_eq_some hf, rfl⟩
  · unfold detect_diagram_type
    have hpe : (fun tp => tp.2.any (fun x => x.matchesAt (pyStrip (pyLower s)))) e = true :=
      List.any_eq_true.mpr ⟨a, ha, hm⟩
    have huniq : ∀ y ∈ type_patterns,
        (fun tp => tp.2.any (fun x => x.matchesAt (pyStrip (pyLower s)))) y = true → y = e := by
      intro y hy hpy
      obtain ⟨b, hb, hbm⟩ := List.any_eq_true.mp hpy
      have h1 := Anchor.matchesAt_kw b _ hbm
      have h2 := Anchor.matchesAt_kw a _ hm
      have htag : y.1 = e.1 := by
        rcases isPrefixOf_comparable _ _ _ h1 h2 with hc | hc
        · rcases anchorsIncomp y hy e he b hb a ha with htag | hfalse
          · exact htag
          · rw [hfalse] at hc; cases hc
        · rcases anchorsIncomp e he y hy a ha b hb with htag | hfalse
          · exact htag.symm
          · rw [hfalse] at hc; cases hc
      exact List.inj_on_of_nodup_map type_patterns_tags_nodup hy he htag
    simp [find?_eq_some_of_unique _ _ e he hpe huniq]
  · unfold detect_diagram_type
    have : type_patterns.find?
        (fun tp => tp.2.any (fun a => a.matchesAt (pyStrip (pyLower s)))) = none := by
      refine List.find?_eq_none.mpr (fun x hx hcon => ?_)
      obtain ⟨b, hb, hbm⟩ := List.any_eq_true.mp hcon
      rw [hno x hx b hb] at hbm
      cases hbm
    simp [this]

/-- Witness for C1 at concrete inputs: a keyword-led snippet routes to the
keyword's tag, an unrecognised snippet routes to `misc`. -/
theorem detect_diagram_type_total_deterministic_table_witness :
    detect_diagram_type "  PIE title x".data = "pie".data
      ∧ detect_diagram_type "zzz".data = "misc".data := by
  obtain ⟨-, -, hroute, hdefault⟩ := detect_diagram_type_total_deterministic_table
  exact ⟨hroute "  PIE title x".data ("pie".data, [Anchor.lit "pie".data]) (by decide)
      (Anchor.lit "pie".data) (by decide) (by decide),
    hdefault "zzz".data (by decide)⟩

/-! ### C2: the writer round-trip -/

/-- A newline-free block does not advance the line counter of `dropLines`. -/
theorem dropLines_append_noNl (n : Nat) (a b : Str) (h : '\n' ∉ a) :
    dropLines (n + 1) (a ++ b) = dropLines (n + 1) b := by
  induction a with
  | nil => simp
  | cons c cs ih =>
    have hc : ¬c = '\n' := fun e => h (e ▸ List.mem_cons_self c cs)
    simp only [List.cons_append, dropLines, if_neg hc]
    exact ih (fun hm => h (List.mem_cons.mpr (Or.inr hm)))

/-- C2.  Writing a snippet with `save_mermaid_sample` and reading the body
back (everything after the three header lines and the blank line, with the
trailing newline removed) recovers the snippet, for every non-empty trimmed
snippet and every newline-free locator and type tag. -/
theorem save_mermaid_sample_roundtrip (code dtype src : Str) (idx : Nat)
    (hsrc : '\n' ∉ src) (hdt : '\n' ∉ dtype)
    (_htrim : pyStrip code = code) (_hne : code ≠ []) :
    readBody (save_mermaid_sample code dtype src idx).2 = code := by
  simp [readBody, save_mermaid_sample, List.append_assoc, dropLines,
    dropLines_append_noNl, hsrc, hdt, dropTrailingNl,
    List.getLast?_concat, List.dropLast_concat]

/-- Witness for C2 at a concrete snippet, locator and type. -/
theorem save_mermaid_sample_roundtrip_witness :
    readBody (save_mermaid_sample "sequenceDiagram\nA->>B: hi".data "sequence".data
      "x.js:L1".data 3).2 = "sequenceDiagram\nA->>B: hi".data :=
  save_mermaid_sample_roundtrip _ _ _ 3 (by decide) (by decide) (by decide) (by decide)

/-! ### C3: idempotence, and what the artifact path depends on -/

theorem applyWrites_apply (ws : List (Str × Str)) (fs : FS) (q : Str) :
    applyWrites ws fs q
      = match lastWrite ws q with
        | some c => some c
        | none => fs q := by
  induction ws generalizing fs with
  | nil => simp [applyWrites, lastWrite]
  | cons w t ih =>
    simp only [applyWrites, lastWrite]
    rw [ih]
    cases h : lastWrite t q with
    | some c => simp
    | none => by_cases hq : q = w.1 <;> simp [hq]

theorem applyWrites_idem (ws : List (Str × Str)) (fs : FS) :
    applyWrites ws (applyWrites ws fs) = applyWrites ws fs := by
  funext q
  rw [applyWrites_apply ws (applyWrites ws fs) q]
  cases h : lastWrite ws q with
  | some c => rw [applyWrites_apply ws fs q, h]
  | none => rfl

/-- Counterexample to C3 as stated: two corpus files with the same base name
yield artifacts with identical `(sourceBaseName, sequenceIndex)` but distinct
paths, because the path also runs through the diagram-type directory. -/
theorem artifact_path_not_function_of_base_and_index :
    runPipeline
        [("a/x.md".data, Except.ok "```mermaid\ngraph TD\n```".data),
         ("b/x.md".data, Except.ok "```mermaid\npie\n```".data)]
      = [("mermaid-samples/flowchart/x_md_000.mermaid".data,
          "// Source: a/x.md:L1\n// Type: flowchart\n// Generated by mermaid sample extractor\n\ngraph TD\n".data),
         ("mermaid-samples/pie/x_md_000.mermaid".data,
          "// Source: b/x.md:L1\n// Type: pie\n// Generated by mermaid sample extractor\n\npie\n".data)]
    ∧ sourceBaseName "a/x.md:L1".data = sourceBaseName "b/x.md:L1".data
    ∧ "mermaid-samples/flowchart/x_md_000.mermaid".data
        ≠ ("mermaid-samples/pie/x_md_000.mermaid".data : Str) := by decide

/-- C3 as amended.  Replaying the whole pipeline's write list over an
unchanged corpus leaves the filesystem exactly as after the first run
(byte-identical artifacts at identical paths), and the artifact path is a
deterministic function of the diagram type, the source base name and the
sequence index — the type directory is part of the path, so the base name and
index alone do not determine it. -/
theorem pipeline_idempotent_and_path_function :
    (∀ (corpus : List (Str × Except Unit Str)) (fs : FS),
        applyWrites (runPipeline corpus) (applyWrites (runPipeline corpus) fs)
          = applyWrites (runPipeline corpus) fs)
    ∧ (∀ (dtype s1 s2 c1 c2 : Str) (idx : Nat),
        sourceBaseName s1 = sourceBaseName s2 →
          (save_mermaid_sample c1 dtype s1 idx).1 = (save_mermaid_sample c2 dtype s2 idx).1) := by
  refine ⟨fun corpus fs => applyWrites_idem _ _, fun dtype s1 s2 c1 c2 idx h => ?_⟩
  simp [save_mermaid_sample, h]

/-- Witness for C3 (amended) at concrete inputs: equal base names with equal
indices and types force equal artifact paths. -/
theorem pipeline_idempotent_and_path_function_witness :
    (save_mermaid_sample "graph TD".data "flowchart".data "a/x.md:L1".data 0).1
      = (save_mermaid_sample "pie title".data "flowchart".data "b/x.md:L9".data 0).1 :=
  pipeline_idempotent_and_path_function.2 "flowchart".data "a/x.md:L1".data "b/x.md:L9".data
    "graph TD".data "pie title".data 0 (by decide)

/-! ### C5: locator format -/

/-- Counterexample to C5 as stated: the direct-file branch hands the bare
path through as the locator, without any `:L<line>` suffix. -/
theorem direct_file_locator_is_bare_path :
    candidatesOf "x.mermaid".data "graph TD\n".data
        = [("graph TD".data, "x.mermaid".data, 0)]
    ∧ ¬∃ p ln : Str, ("x.mermaid".data : Str) = p ++ ":L".data ++ ln := by
  refine ⟨by decide, ?_⟩
  rintro ⟨p, ln, h⟩
  have hL : ':' ∈ (":L".data : Str) := by decide
  have hc : ':' ∈ ("x.mermaid".data : Str) := by
    rw [h]
    exact List.mem_append.mpr (Or.inl (List.mem_append.mpr (Or.inr hL)))
  exact absurd hc (by decide)

/-- A successful `findSub` points at an occurrence of the pattern. -/
theorem findSub_some_drop (pat : Str) : ∀ (s : Str) (o : Nat),
    findSub pat s = some o → pat.isPrefixOf (s.drop o) = true := by
  intro s
  induction s with
  | nil =>
    intro o h
    cases pat with
    | nil => simp [findSub] at h; simp [h, List.isPrefixOf]
    | cons pc pt => simp [findSub] at h
  | cons c cs ih =>
    intro o h
    by_cases hp : pat.isPrefixOf (c :: cs) = true
    · rw [findSub, if_pos hp] at h
      cases h
      simpa using hp
    · rw [findSub, if_neg hp] at h
      cases ho : findSub pat cs with
      | none => rw [ho] at h; cases h
      | some o' =>
        rw [ho] at h
        simp only [Option.map_some'] at h
        cases h
        simpa using ih o' ho

/-- A successful `ciFindSub` points at a case-insensitive occurrence. -/
theorem ciFindSub_some_drop (pat : Str) : ∀ (s : Str) (o : Nat),
    ciFindSub pat s = some o → ciIsPrefixOf pat (s.drop o) = true := by
  intro s
  induction s with
  | nil =>
    intro o h
    cases pat with
    | nil => simp [ciFindSub] at h; simp [h, ciIsPrefixOf]
    | cons pc pt => simp [ciFindSub] at h
  | cons c cs ih =>
    intro o h
    by_cases hp : ciIsPrefixOf pat (c :: cs) = true
    · rw [ciFindSub, if_pos hp] at h
      cases h
      simpa using hp
    · rw [ciFindSub, if_neg hp] at h
      cases ho : ciFindSub pat cs with
      | none => rw [ho] at h; cases h
      | some o' =>
        rw [ho] at h
        simp only [Option.map_some'] at h
        cases h
        simpa using ih o' ho

/-- A successful `List.findIdx?` points at an element satisfying the
predicate (stated with the running start index of the core definition). -/
theorem findIdx?_from_spec {p : Char → Bool} : ∀ (l : Str) (i j : Nat),
    List.findIdx? p l i = some j →
    ∃ (x : Char) (t : Str), i ≤ j ∧ l.drop (j - i) = x :: t ∧ p x = true := by
  intro l
  induction l with
  | nil => intro i j h; simp [List.findIdx?] at h
  | cons a t ih =>
    intro i j h
    by_cases hp : p a = true
    · rw [List.findIdx?, if_pos hp] at h
      cases h
      exact ⟨a, t, Nat.le_refl _, by simp, hp⟩
    · rw [List.findIdx?, if_neg hp] at h
      obtain ⟨x, t', hle, hdrop, hpx⟩ := ih (i + 1) j h
      refine ⟨x, t', by omega, ?_, hpx⟩
      have harith : j - i = (j - (i + 1)) + 1 := by omega
      rw [harith]
      simpa using hdrop

theorem findIdx?_zero_spec {p : Char → Bool} (l : Str) (j : Nat)
    (h : List.findIdx? p l = some j) :
    ∃ (x : Char) (t : Str), l.drop j = x :: t ∧ p x = true := by
  obtain ⟨x, t, _, hdrop, hpx⟩ := findIdx?_from_spec l 0 j h
  exact ⟨x, t, by simpa using hdrop, hpx⟩

/-- Splitting a list at a Boolean prefix. -/
theorem prefix_split (pat l : Str) (hp : pat.isPrefixOf l = true) :
    ∃ t, l = pat ++ t := (isPrefixOf_eq_true_iff pat l).mp hp

/-- Advancing a suffix view of `content` by `k` characters. -/
theorem drop_advance (content s : Str) (pos k : Nat) (h : List.drop pos content = s) :
    List.drop (pos + k) content = s.drop k := by
  rw [← List.drop_drop, h]

theorem drop_succ_cons (content : Str) (pos : Nat) (c : Char) (rest : Str)
    (h : List.drop pos content = c :: rest) : List.drop (pos + 1) content = rest := by
  rw [← List.drop_drop, h, List.drop_one, List.tail_cons]

/-- The second component of an `enum` entry is a member of the list. -/
theorem snd_mem_of_mem_enumFrom {α : Type} : ∀ (l : List α) (n : Nat) (p : Nat × α),
    p ∈ List.enumFrom n l → p.2 ∈ l := by
  intro l
  induction l with
  | nil => intro n p h; cases h
  | cons a t ih =>
    intro n p h
    rcases List.mem_cons.mp h with rfl | h'
    · exact List.mem_cons_self _ _
    · exact List.mem_cons.mpr (Or.inr (ih (n + 1) p h'))

theorem snd_mem_of_mem_enum {α : Type} (l : List α) (p : Nat × α)
    (h : p ∈ l.enum) : p.2 ∈ l :=
  snd_mem_of_mem_enumFrom l 0 p h

/-- Every match reported by `mdScan` sits at its reported start position: the
content from there begins with the opening fence, the raw group, and the
closing fence. -/
theorem mdScan_spec (content : Str) : ∀ (fuel : Nat) (s : Str) (pos : Nat),
    List.drop pos content = s → ∀ gs ∈ mdScan fuel s pos,
    ∃ rest : Str, List.drop gs.2 content
      = "```mermaid\n".data ++ (gs.1 ++ ("\n```".data ++ rest)) := by
  intro fuel
  induction fuel with
  | zero => intro s pos h gs hgs; simp [mdScan] at hgs
  | succ fuel ih =>
    intro s pos h gs hgs
    rw [mdScan] at hgs
    cases hfo : findSub "```mermaid\n".data s with
    | none => rw [hfo] at hgs; cases hgs
    | some o =>
      rw [hfo] at hgs
      cases hfk : findSub "\n```".data (s.drop (o + 11)) with
      | none => simp only [hfk] at hgs; cases hgs
      | some k =>
        simp only [hfk] at hgs
        rcases List.mem_cons.mp hgs with rfl | hgs'
        · obtain ⟨t1, ht1⟩ := prefix_split _ _ (findSub_some_drop _ s o hfo)
          have hr : s.drop (o + 11) = t1 := by
            have hlen : ("```mermaid\n".data : Str).length = 11 := by decide
            rw [← List.drop_drop, ht1, ← hlen]
            exact List.drop_left _ _
          obtain ⟨t2, ht2⟩ := prefix_split _ _ (findSub_some_drop _ (s.drop (o + 11)) k hfk)
          rw [hr] at ht2
          refine ⟨t2, ?_⟩
          have h1 : List.drop (pos + o) content = s.drop o := drop_advance content s pos o h
          rw [h1, ht1, hr]
      -- goal: fence ++ t1 = fence ++ (t1.take k ++ (close ++ t2))
          congr 1
          conv_lhs => rw [← List.take_append_drop k t1]
          rw [ht2]
        · exact ih _ _ (drop_advance content s pos _ h) gs hgs'

/-- Every match reported by `scanP1` sits at its reported start: an opening
quote character, the raw group, and a closing quote character of some kind. -/
theorem scanP1_spec (content : Str) : ∀ (fuel : Nat) (s : Str) (pos : Nat),
    List.drop pos content = s → ∀ gs ∈ scanP1 fuel s pos,
    ∃ (q1 q2 : Char) (rest : Str), isQuoteCh q1 = true ∧ isQuoteCh q2 = true ∧
      List.drop gs.2 content = q1 :: (gs.1 ++ q2 :: rest) := by
  intro fuel
  induction fuel with
  | zero => intro s pos h gs hgs; simp [scanP1] at hgs
  | succ fuel ih =>
    intro s pos h gs hgs
    cases s with
    | nil => simp [scanP1] at hgs
    | cons c rest0 =>
      rw [scanP1] at hgs
      by_cases hq : isQuoteCh c = true
      · rw [if_pos hq] at hgs
        cases hfk : findKw rest0 with
        | none =>
          rw [hfk] at hgs
          exact ih _ _ (drop_succ_cons content pos c rest0 h) gs hgs
        | some kw =>
          rw [hfk] at hgs
          cases hqi : (rest0.drop kw.length).findIdx? isQuoteCh with
          | none =>
            simp only [hqi] at hgs
            exact ih _ _ (drop_succ_cons content pos c rest0 h) gs hgs
          | some q =>
            simp only [hqi] at hgs
            rcases List.mem_cons.mp hgs with rfl | hgs'
            · unfold findKw at hfk
              have hkw0 := List.find?_some hfk
              have hkw : kw.isPrefixOf rest0 = true := hkw0
              obtain ⟨t1, ht1⟩ := prefix_split kw rest0 hkw
              have hr : rest0.drop kw.length = t1 := by
                rw [ht1]; exact List.drop_left _ _
              obtain ⟨q2, u, hdropq, hq2⟩ := findIdx?_zero_spec _ q hqi
              rw [hr] at hdropq
              have hfinal : rest0 = (kw ++ t1.take q) ++ (q2 :: u) := by
                rw [ht1, List.append_assoc]
                congr 1
                conv_lhs => rw [← List.take_append_drop q t1]
                rw [hdropq]
              refine ⟨c, q2, u, hq, hq2, ?_⟩
              rw [hr, h, hfinal]
            · have hr0 : rest0 = List.drop (pos + 1) content :=
                (drop_succ_cons content pos c rest0 h).symm
              have hstep : List.drop (pos + 1 + kw.length + q + 1) content
                  = (rest0.drop kw.length).drop (q + 1) := by
                rw [hr0, List.drop_drop, List.drop_drop]
                congr 1
                omega
              exact ih _ _ hstep gs hgs'
      · rw [if_neg hq] at hgs
        exact ih _ _ (drop_succ_cons content pos c rest0 h) gs hgs

theorem drop_takeWhile_length (p : Char → Bool) (l : Str) :
    l.drop (l.takeWhile p).length = l.dropWhile p := by
  nth_rewrite 2 [← List.takeWhile_append_dropWhile p l]
  exact List.drop_left _ _

/-- Every match reported by `scanP2` sits at its reported start: the literal
`mermaid:`, a whitespace run, an opening quote, the raw group, and a closing
quote. -/
theorem scanP2_spec (content : Str) : ∀ (fuel : Nat) (s : Str) (pos : Nat),
    List.drop pos content = s → ∀ gs ∈ scanP2 fuel s pos,
    ∃ (wsl : Str) (q1 q2 : Char) (rest : Str),
      (∀ w ∈ wsl, pyIsSpace w = true) ∧ isQuoteCh q1 = true ∧ isQuoteCh q2 = true ∧
      List.drop gs.2 content
        = "mermaid:".data ++ (wsl ++ (q1 :: (gs.1 ++ q2 :: rest))) := by
  intro fuel
  induction fuel with
  | zero => intro s pos h gs hgs; simp [scanP2] at hgs
  | succ fuel ih =>
    intro s pos h gs hgs
    cases s with
    | nil => simp [scanP2] at hgs
    | cons c rest0 =>
      rw [scanP2] at hgs
      by_cases hp : "mermaid:".data.isPrefixOf (c :: rest0) = true
      · rw [if_pos hp] at hgs
        cases hm : ((c :: rest0).drop 8).drop
            (((c :: rest0).drop 8).takeWhile pyIsSpace).length with
        | nil =>
          simp only [hm] at hgs
          exact ih _ _ (drop_succ_cons content pos c rest0 h) gs hgs
        | cons q afterQ =>
          simp only [hm] at hgs
          by_cases hq : isQuoteCh q = true
          · rw [if_pos hq] at hgs
            cases hqi : afterQ.findIdx? isQuoteCh with
            | none =>
              simp only [hqi] at hgs
              exact ih _ _ (drop_succ_cons content pos c rest0 h) gs hgs
            | some k =>
              simp only [hqi] at hgs
              rcases List.mem_cons.mp hgs with rfl | hgs'
              · obtain ⟨t1, ht1⟩ := prefix_split _ _ hp
                have hlen8 : ("mermaid:".data : Str).length = 8 := by decide
                have h8 : (c :: rest0).drop 8 = t1 := by
                  rw [ht1, ← hlen8]; exact List.drop_left _ _
                rw [h8, drop_takeWhile_length] at hm
                obtain ⟨q2, u, hdropq, hq2⟩ := findIdx?_zero_spec _ k hqi
                refine ⟨t1.takeWhile pyIsSpace, q, q2, u,
                  fun w hw => List.mem_takeWhile_imp hw, hq, hq2, ?_⟩
                rw [h, ht1]
                congr 1
                conv_lhs => rw [← List.takeWhile_append_dropWhile pyIsSpace t1]
                rw [hm]
                congr 1
                congr 1
                conv_lhs => rw [← List.take_append_drop k afterQ]
                rw [hdropq]
              · have hstep : List.drop (pos + 8
                      + (((c :: rest0).drop 8).takeWhile pyIsSpace).length + 1 + k + 1) content
                    = afterQ.drop (k + 1) := by
                  have hAQ : afterQ = (((c :: rest0).drop 8).drop
                      (((c :: rest0).drop 8).takeWhile pyIsSpace).length).drop 1 := by
                    rw [hm, List.drop_one, List.tail_cons]
                  rw [hAQ, ← h]
                  simp only [List.drop_drop]
                  try congr 1
                  try omega
                exact ih _ _ hstep gs hgs'
          · rw [if_neg hq] at hgs
            exact ih _ _ (drop_succ_cons content pos c rest0 h) gs hgs
      · rw [if_neg hp] at hgs
        exact ih _ _ (drop_succ_cons content pos c rest0 h) gs hgs

/-- Every match reported by `scanP3` sits at its reported start: the literal
`content:`, a whitespace run, an opening quote, the keyword-led raw group,
and a closing quote. -/
theorem scanP3_spec (content : Str) : ∀ (fuel : Nat) (s : Str) (pos : Nat),
    List.drop pos content = s → ∀ gs ∈ scanP3 fuel s pos,
    ∃ (wsl : Str) (q1 q2 : Char) (rest : Str),
      (∀ w ∈ wsl, pyIsSpace w = true) ∧ isQuoteCh q1 = true ∧ isQuoteCh q2 = true ∧
      List.drop gs.2 content
        = "content:".data ++ (wsl ++ (q1 :: (gs.1 ++ q2 :: rest))) := by
  intro fuel
  induction fuel with
  | zero => intro s pos h gs hgs; simp [scanP3] at hgs
  | succ fuel ih =>
    intro s pos h gs hgs
    cases s with
    | nil => simp [scanP3] at hgs
    | cons c rest0 =>
      rw [scanP3] at hgs
      by_cases hp : "content:".data.isPrefixOf (c :: rest0) = true
      · rw [if_pos hp] at hgs
        cases hm : ((c :: rest0).drop 8).drop
            (((c :: rest0).drop 8).takeWhile pyIsSpace).length with
        | nil =>
          simp only [hm] at hgs
          exact ih _ _ (drop_succ_cons content pos c rest0 h) gs hgs
        | cons q afterQ =>
          simp only [hm] at hgs
          by_cases hq : isQuoteCh q = true
          · rw [if_pos hq] at hgs
            cases hfk : findKw afterQ with
            | none =>
              rw [hfk] at hgs
              exact ih _ _ (drop_succ_cons content pos c rest0 h) gs hgs
            | some kw =>
              rw [hfk] at hgs
              cases hqi : (afterQ.drop kw.length).findIdx? isQuoteCh with
              | none =>
                simp only [hqi] at hgs
                exact ih _ _ (drop_succ_cons content pos c rest0 h) gs hgs
              | some k =>
                simp only [hqi] at hgs
                rcases List.mem_cons.mp hgs with rfl | hgs'
                · obtain ⟨t1, ht1⟩ := prefix_split _ _ hp
                  have hlen8 : ("content:".data : Str).length = 8 := by decide
                  have h8 : (c :: rest0).drop 8 = t1 := by
                    rw [ht1, ← hlen8]; exact List.drop_left _ _
                  rw [h8, drop_takeWhile_length] at hm
                  unfold findKw at hfk
                  have hkw0 := List.find?_some hfk
                  have hkw : kw.isPrefixOf afterQ = true := hkw0
                  obtain ⟨t2, ht2⟩ := prefix_split kw afterQ hkw
                  have hr2 : afterQ.drop kw.length = t2 := by
                    rw [ht2]; exact List.drop_left _ _
                  obtain ⟨q2, u, hdropq, hq2⟩ := findIdx?_zero_spec _ k hqi
                  rw [hr2] at hdropq
                  have hfinal : afterQ = (kw ++ t2.take k) ++ (q2 :: u) := by
                    rw [ht2, List.append_assoc]
                    congr 1
                    conv_lhs => rw [← List.take_append_drop k t2]
                    rw [hdropq]
                  refine ⟨t1.takeWhile pyIsSpace, q, q2, u,
                    fun w hw => List.mem_takeWhile_imp hw, hq, hq2, ?_⟩
                  rw [hr2, h, ht1]
                  congr 1
                  conv_lhs => rw [← List.takeWhile_append_dropWhile pyIsSpace t1]
                  rw [hm]
                  rw [hfinal]
                · have hstep : List.drop (pos + 8
                        + (((c :: rest0).drop 8).takeWhile pyIsSpace).length + 1
                        + kw.length + k + 1) content
                      = (afterQ.drop kw.length).drop (k + 1) := by
                    have hAQ : afterQ = (((c :: rest0).drop 8).drop
                        (((c :: rest0).drop 8).takeWhile pyIsSpace).length).drop 1 := by
                      rw [hm, List.drop_one, List.tail_cons]
                    rw [hAQ, ← h]
                    simp only [List.drop_drop]
                    try congr 1
                    try omega
                  exact ih _ _ hstep gs hgs'
          · rw [if_neg hq] at hgs
            exact ih _ _ (drop_succ_cons content pos c rest0 h) gs hgs
      · rw [if_neg hp] at hgs
        exact ih _ _ (drop_succ_cons content pos c rest0 h) gs hgs

theorem ciIsPrefixOf_le_length : ∀ (p s : Str), ciIsPrefixOf p s = true →
    p.length ≤ s.length := by
  intro p
  induction p with
  | nil => intro s _; simp
  | cons a ta ih =>
    intro s h
    cases s with
    | nil => simp [ciIsPrefixOf] at h
    | cons b tb =>
      simp only [ciIsPrefixOf, Bool.and_eq_true] at h
      simp only [List.length_cons]
      exact Nat.succ_le_succ (ih tb h.2)

/-- Every match reported by `scanH1` sits at its reported start: a
case-insensitive `<div`, the attribute region, `>`, the raw body, and a
case-insensitive `</div>`. -/
theorem scanH1_spec (content : Str) : ∀ (fuel : Nat) (s : Str) (pos : Nat),
    List.drop pos content = s → ∀ gs ∈ scanH1 fuel s pos,
    ∃ (head attrs tail : Str), head.length = 4 ∧
      ciIsPrefixOf "<div".data (List.drop gs.2 content) = true ∧
      ciIsPrefixOf "</div>".data tail = true ∧
      List.drop gs.2 content = head ++ (attrs ++ ('>' :: (gs.1 ++ tail))) := by
  intro fuel
  induction fuel with
  | zero => intro s pos h gs hgs; simp [scanH1] at hgs
  | succ fuel ih =>
    intro s pos h gs hgs
    cases s with
    | nil => simp [scanH1] at hgs
    | cons c rest0 =>
      rw [scanH1] at hgs
      by_cases hdiv : ciIsPrefixOf "<div".data (c :: rest0) = true
      · rw [if_pos hdiv] at hgs
        cases hgi : ((c :: rest0).drop 4).findIdx? (fun ch => ch = '>') with
        | none =>
          simp only [hgi] at hgs
          exact ih _ _ (drop_succ_cons content pos c rest0 h) gs hgs
        | some g =>
          simp only [hgi] at hgs
          by_cases hcls : (ciFindSub ("class=".data ++ [dqCh] ++ "mermaid".data ++ [dqCh])
              (((c :: rest0).drop 4).take g)).isSome = true
          · rw [if_pos hcls] at hgs
            cases hce : ciFindSub "</div>".data (((c :: rest0).drop 4).drop (g + 1)) with
            | none =>
              simp only [hce] at hgs
              exact ih _ _ (drop_succ_cons content pos c rest0 h) gs hgs
            | some e =>
              simp only [hce] at hgs
              rcases List.mem_cons.mp hgs with rfl | hgs'
              · obtain ⟨x, t, hdropg, hx⟩ := findIdx?_zero_spec _ g hgi
                have hxgt : x = '>' := of_decide_eq_true hx
                subst hxgt
                have hAG : ((c :: rest0).drop 4).drop (g + 1) = t := by
                  rw [← List.drop_drop 1 g ((c :: rest0).drop 4), hdropg,
                    List.drop_one, List.tail_cons]
                refine ⟨(c :: rest0).take 4, ((c :: rest0).drop 4).take g,
                  (((c :: rest0).drop 4).drop (g + 1)).drop e, ?_, ?_, ?_, ?_⟩
                · have h4 : (4 : Nat) ≤ (c :: rest0).length := by
                    have hl := ciIsPrefixOf_le_length _ _ hdiv
                    simpa using hl
                  simp only [List.length_take]
                  omega
                · rw [h]; exact hdiv
                · exact ciFindSub_some_drop _ _ e hce
                · rw [h]
                  conv_lhs => rw [← List.take_append_drop 4 (c :: rest0)]
                  congr 1
                  conv_lhs => rw [← List.take_append_drop g ((c :: rest0).drop 4)]
                  congr 1
                  rw [hdropg]
                  congr 1
                  rw [hAG]
                  exact (List.take_append_drop e t).symm
              · have hstep : List.drop (pos + 4 + g + 1 + e + 6) content
                    = ((((c :: rest0).drop 4).drop (g + 1)).drop (e + 6)) := by
                  rw [← h]
                  simp only [List.drop_drop]
                  try congr 1
                  try omega
                exact ih _ _ hstep gs hgs'
          · rw [if_neg hcls] at hgs
            exact ih _ _ (drop_succ_cons content pos c rest0 h) gs hgs
      · rw [if_neg hdiv] at hgs
        exact ih _ _ (drop_succ_cons content pos c rest0 h) gs hgs

/-- Every match reported by `scanH2` sits at its reported start: an optional
`var`/`const` assignment lead (empty, or exactly what `assignLead` consumes
there), an opening quote, the keyword-led raw group, and a closing quote. -/
theorem scanH2_spec (content : Str) : ∀ (fuel : Nat) (s : Str) (pos : Nat),
    List.drop pos content = s → ∀ gs ∈ scanH2 fuel s pos,
    ∃ (lead : Str) (q1 q2 : Char) (rest : Str),
      isQuoteCh q1 = true ∧ isQuoteCh q2 = true ∧
      (lead = [] ∨ assignLead (List.drop gs.2 content) = some lead.length) ∧
      List.drop gs.2 content = lead ++ (q1 :: (gs.1 ++ q2 :: rest)) := by
  intro fuel
  induction fuel with
  | zero => intro s pos h gs hgs; simp [scanH2] at hgs
  | succ fuel ih =>
    intro s pos h gs hgs
    cases s with
    | nil => simp [scanH2] at hgs
    | cons c rest0 =>
      rw [scanH2] at hgs
      cases hm : (c :: rest0).drop ((assignLead (c :: rest0)).getD 0) with
      | nil =>
        simp only [hm] at hgs
        exact ih _ _ (drop_succ_cons content pos c rest0 h) gs hgs
      | cons q afterQ =>
        simp only [hm] at hgs
        by_cases hq : isQuoteCh q = true
        · rw [if_pos hq] at hgs
          cases hfk : findKw afterQ with
          | none =>
            rw [hfk] at hgs
            exact ih _ _ (drop_succ_cons content pos c rest0 h) gs hgs
          | some kw =>
            rw [hfk] at hgs
            cases hqi : (afterQ.drop kw.length).findIdx? isQuoteCh with
            | none =>
              simp only [hqi] at hgs
              exact ih _ _ (drop_succ_cons content pos c rest0 h) gs hgs
            | some k =>
              simp only [hqi] at hgs
              rcases List.mem_cons.mp hgs with rfl | hgs'
              · unfold findKw at hfk
                have hkw0 := List.find?_some hfk
                have hkw : kw.isPrefixOf afterQ = true := hkw0
                obtain ⟨t2, ht2⟩ := prefix_split kw afterQ hkw
                have hr2 : afterQ.drop kw.length = t2 := by
                  rw [ht2]; exact List.drop_left _ _
                obtain ⟨q2, u, hdropq, hq2⟩ := findIdx?_zero_spec _ k hqi
                rw [hr2] at hdropq
                have hfinal : afterQ = (kw ++ t2.take k) ++ (q2 :: u) := by
                  rw [ht2, List.append_assoc]
                  congr 1
                  conv_lhs => rw [← List.take_append_drop k t2]
                  rw [hdropq]
                refine ⟨(c :: rest0).take ((assignLead (c :: rest0)).getD 0),
                  q, q2, u, hq, hq2, ?_, ?_⟩
                · cases hal : assignLead (c :: rest0) with
                  | none => exact Or.inl (by simp [hal])
                  | some j0 =>
                    refine Or.inr ?_
                    have hJlt : (assignLead (c :: rest0)).getD 0 < (c :: rest0).length := by
                      by_contra hge
                      have hnil := List.drop_eq_nil_of_le (Nat.le_of_not_lt hge)
                      rw [hm] at hnil
                      cases hnil
                    rw [h, hal]
                    rw [hal] at hJlt
                    simp only [Option.getD_some] at hJlt ⊢
                    congr 1
                    rw [List.length_take]
                    omega
                · rw [h]
                  conv_lhs => rw [← List.take_append_drop
                      ((assignLead (c :: rest0)).getD 0) (c :: rest0)]
                  rw [hm, hr2, hfinal]
              · have hstep : List.drop (pos + (assignLead (c :: rest0)).getD 0
                      + 1 + kw.length + k + 1) content
                    = (afterQ.drop kw.length).drop (k + 1) := by
                  have hAQ : afterQ
                      = ((c :: rest0).drop ((assignLead (c :: rest0)).getD 0)).drop 1 := by
                    rw [hm, List.drop_one, List.tail_cons]
                  rw [hAQ, ← h]
                  simp only [List.drop_drop]
                  try congr 1
                  try omega
                exact ih _ _ hstep gs hgs'
        · rw [if_neg hq] at hgs
          exact ih _ _ (drop_succ_cons content pos c rest0 h) gs hgs

/-- C5 as amended (strengthened).  Every candidate of the markdown, HTML and
script extractors carries a locator of the form `<path>:L<line>` where `line`
is one plus the newline count of the content before the match start `st`, and
the respective pattern really does match at `st`: the markdown fence, the
HTML container or quoted literal, or one of the three script shapes opens
exactly there, around the candidate's raw group.  The direct-file branch
instead uses the bare file path as locator (and index 0). -/
theorem locator_format_per_extractor :
    (∀ content file_path : Str, ∀ c ∈ extract_mermaid_from_markdown content file_path,
        ∃ (st : Nat) (raw rest : Str),
          c.1 = pyStrip raw
          ∧ c.2.1 = file_path ++ ":L".data ++ natStr (countNl (content.take st) + 1)
          ∧ List.drop st content = "```mermaid\n".data ++ (raw ++ ("\n```".data ++ rest)))
    ∧ (∀ content file_path : Str, ∀ c ∈ extract_mermaid_from_html content file_path,
        ∃ (st : Nat) (raw : Str),
          c.2.1 = file_path ++ ":L".data ++ natStr (countNl (content.take st) + 1)
          ∧ ((c.1 = decodeEntities (collapseWs (pyStrip raw))
              ∧ ∃ (head attrs tail : Str), head.length = 4
                  ∧ ciIsPrefixOf "<div".data (List.drop st content) = true
                  ∧ ciIsPrefixOf "</div>".data tail = true
                  ∧ List.drop st content = head ++ (attrs ++ ('>' :: (raw ++ tail))))
            ∨ (c.1 = pyStrip raw
              ∧ ∃ (lead : Str) (q1 q2 : Char) (rest : Str),
                  isQuoteCh q1 = true ∧ isQuoteCh q2 = true
                  ∧ (lead = [] ∨ assignLead (List.drop st content) = some lead.length)
                  ∧ List.drop st content = lead ++ (q1 :: (raw ++ q2 :: rest)))))
    ∧ (∀ content file_path : Str, ∀ c ∈ extract_mermaid_from_js content file_path,
        ∃ (st : Nat) (raw : Str),
          c.1 = unescapeJs (pyStrip raw)
          ∧ c.2.1 = file_path ++ ":L".data ++ natStr (countNl (content.take st) + 1)
          ∧ ((∃ (q1 q2 : Char) (rest : Str), isQuoteCh q1 = true ∧ isQuoteCh q2 = true
                ∧ List.drop st content = q1 :: (raw ++ q2 :: rest))
            ∨ (∃ (wsl : Str) (q1 q2 : Char) (rest : Str),
                (∀ w ∈ wsl, pyIsSpace w = true) ∧ isQuoteCh q1 = true ∧ isQuoteCh q2 = true
                ∧ List.drop st content = "mermaid:".data ++ (wsl ++ (q1 :: (raw ++ q2 :: rest))))
            ∨ (∃ (wsl : Str) (q1 q2 : Char) (rest : Str),
                (∀ w ∈ wsl, pyIsSpace w = true) ∧ isQuoteCh q1 = true ∧ isQuoteCh q2 = true
                ∧ List.drop st content = "content:".data ++ (wsl ++ (q1 :: (raw ++ q2 :: rest))))))
    ∧ (∀ file_path content : Str, pySuffix file_path = ".mermaid".data →
        candidatesOf file_path content = [(pyStrip content, file_path, 0)]) := by
  refine ⟨fun content file_path c hc => ?_, fun content file_path c hc => ?_,
    fun content file_path c hc => ?_, fun file_path content h => ?_⟩
  · obtain ⟨a, ha, rfl⟩ := List.mem_map.mp hc
    obtain ⟨i, ax⟩ := a
    have hmem : ax ∈ mdScan (content.length + 1) content 0 :=
      snd_mem_of_mem_enum _ (i, ax) ha
    obtain ⟨rest, hshape⟩ :=
      mdScan_spec content (content.length + 1) content 0 (by simp) ax hmem
    exact ⟨ax.2, ax.1, rest, rfl, rfl, hshape⟩
  · obtain ⟨a, ha, rfl⟩ := List.mem_map.mp hc
    obtain ⟨i, ax⟩ := a
    have hmem := snd_mem_of_mem_enum _ (i, ax) ha
    rcases List.mem_append.mp hmem with hm1 | hm2
    · obtain ⟨b, hb, rfl⟩ := List.mem_map.mp hm1
      obtain ⟨head, attrs, tail, hlen, hciv, hcid, hshape⟩ :=
        scanH1_spec content (content.length + 1) content 0 (by simp) b hb
      exact ⟨b.2, b.1, rfl, Or.inl ⟨rfl, head, attrs, tail, hlen, hciv, hcid, hshape⟩⟩
    · obtain ⟨b, hb, rfl⟩ := List.mem_map.mp hm2
      obtain ⟨lead, q1, q2, rest, hq1, hq2, hlead, hshape⟩ :=
        scanH2_spec content (content.length + 1) content 0 (by simp) b hb
      exact ⟨b.2, b.1, rfl, Or.inr ⟨rfl, lead, q1, q2, rest, hq1, hq2, hlead, hshape⟩⟩
  · obtain ⟨a, ha, rfl⟩ := List.mem_map.mp hc
    obtain ⟨i, ax⟩ := a
    have hmem := snd_mem_of_mem_enum _ (i, ax) ha
    rcases List.mem_append.mp hmem with hm12 | hm3
    · rcases List.mem_append.mp hm12 with hm1 | hm2
      · obtain ⟨q1, q2, rest, hq1, hq2, hshape⟩ :=
          scanP1_spec content (content.length + 1) content 0 (by simp) ax hm1
        exact ⟨ax.2, ax.1, rfl, rfl, Or.inl ⟨q1, q2, rest, hq1, hq2, hshape⟩⟩
      · obtain ⟨wsl, q1, q2, rest, hws, hq1, hq2, hshape⟩ :=
          scanP2_spec content (content.length + 1) content 0 (by simp) ax hm2
        exact ⟨ax.2, ax.1, rfl, rfl, Or.inr (Or.inl ⟨wsl, q1, q2, rest, hws, hq1, hq2, hshape⟩)⟩
    · obtain ⟨wsl, q1, q2, rest, hws, hq1, hq2, hshape⟩ :=
        scanP3_spec content (content.length + 1) content 0 (by simp) ax hm3
      exact ⟨ax.2, ax.1, rfl, rfl, Or.inr (Or.inr ⟨wsl, q1, q2, rest, hws, hq1, hq2, hshape⟩)⟩
  · unfold candidatesOf
    dsimp only
    rw [h]
    split_ifs with h1 h2 h3 h4
    · exact absurd h1 (by decide)
    · exact absurd h2 (by decide)
    · exact absurd h3 (by decide)
    · rfl
    · exact absurd rfl h4

/-- Witness for C5 (amended) at concrete inputs: the fenced block of a
concrete markdown file yields a locator pointing at line 3, where the fence
really opens, and a concrete `.mermaid` file becomes the single bare-path
candidate. -/
theorem locator_format_per_extractor_witness :
    (∃ (st : Nat) (raw rest : Str),
        (("graph TD\nA-->B".data, "doc.md:L3".data, 0) : Str × Str × Nat).1 = pyStrip raw
        ∧ (("graph TD\nA-->B".data, "doc.md:L3".data, 0) : Str × Str × Nat).2.1
            = "doc.md".data ++ ":L".data ++ natStr (countNl
                (("intro\n\n```mermaid\ngraph TD\nA-->B\n```\n".data : Str).take st) + 1)
        ∧ List.drop st ("intro\n\n```mermaid\ngraph TD\nA-->B\n```\n".data : Str)
            = "```mermaid\n".data ++ (raw ++ ("\n```".data ++ rest)))
    ∧ candidatesOf "x.mermaid".data "graph TD\n".data
        = [("graph TD".data, "x.mermaid".data, 0)] := by
  constructor
  · have hmem : (("graph TD\nA-->B".data, "doc.md:L3".data, 0) : Str × Str × Nat)
        ∈ extract_mermaid_from_markdown "intro\n\n```mermaid\ngraph TD\nA-->B\n```\n".data
            "doc.md".data := by decide
    exact locator_format_per_extractor.1 "intro\n\n```mermaid\ngraph TD\nA-->B\n```\n".data
      "doc.md".data ("graph TD\nA-->B".data, "doc.md:L3".data, 0) hmem
  · exact locator_format_per_extractor.2.2.2 "x.mermaid".data "graph TD\n".data (by decide)

/-! ### C6: the `content:` script scenario -/

/-- Counterexample to C6 as stated: the snippet matches both the generic
quoted-literal pass and the `content:` pass, and overlapping matches are not
deduplicated, so the file yields two artifacts, not one. -/
theorem content_scenario_not_single_artifact :
    (process_file "x.js".data (Except.ok
        ("content: ".data ++ [dqCh] ++ "sequenceDiagram\\nA->>B: hi".data ++ [dqCh]))).length = 2
    ∧ ¬(process_file "x.js".data (Except.ok
        ("content: ".data ++ [dqCh] ++ "sequenceDiagram\\nA->>B: hi".data ++ [dqCh]))).length = 1 := by
  decide

/-- C6 as amended.  The script file whose content is
`content: "sequenceDiagram\nA->>B: hi"` produces exactly two artifacts (one
per matching pass), both under the `sequence/` type directory, and both with
body `sequenceDiagram`, newline, `A->>B: hi` — the two-character escape
sequence decoded to a literal newline. -/
theorem content_scenario_two_sequence_artifacts :
    process_file "x.js".data (Except.ok
        ("content: ".data ++ [dqCh] ++ "sequenceDiagram\\nA->>B: hi".data ++ [dqCh]))
      = [("mermaid-samples/sequence/x_js_000.mermaid".data,
          "// Source: x.js:L1\n// Type: sequence\n// Generated by mermaid sample extractor\n\nsequenceDiagram\nA->>B: hi\n".data),
         ("mermaid-samples/sequence/x_js_001.mermaid".data,
          "// Source: x.js:L1\n// Type: sequence\n// Generated by mermaid sample extractor\n\nsequenceDiagram\nA->>B: hi\n".data)] := by
  decide

/-! ### C4: sequence indices and the empty-match filter -/

/-- Counterexample to C4 as stated: a markdown file whose first fenced block
is whitespace-only persists one candidate, but that candidate carries index 1
— the discarded empty match already consumed index 0, so the persisted
indices are not `0..N-1`. -/
theorem kept_indices_not_contiguous :
    (keptCandidates "m.md".data "```mermaid\n \n```\n```mermaid\ngraph TD\n```".data).map
        (fun t => t.2.2) = [1]
    ∧ (keptCandidates "m.md".data "```mermaid\n \n```\n```mermaid\ngraph TD\n```".data).map
        (fun t => t.2.2)
      ≠ List.range
          (keptCandidates "m.md".data "```mermaid\n \n```\n```mermaid\ngraph TD\n```".data).length := by
  decide

theorem map_idx_enum_map {α : Type} (l : List α) (g : Nat × α → Str × Str × Nat)
    (hg : ∀ p, (g p).2.2 = p.1) :
    (l.enum.map g).map (fun t => t.2.2) = List.range l.length := by
  rw [List.map_map]
  have hfun : ((fun t : Str × Str × Nat => t.2.2) ∘ g) = Prod.fst := funext hg
  rw [hfun, List.enum_map_fst]

/-- C4 as amended.  Every extractor assigns sequence indices `0..K-1` over its
raw matches (`K` the raw match count, in discovery order), before the
orchestration filter runs; the filter then discards empty and whitespace-only
candidates without renumbering, so the persisted indices are a strictly
increasing subsequence of `0..K-1` — with gaps exactly where empty matches
were discarded, rather than the gap-free `0..N-1` of the claim. -/
theorem extractor_indices_enumerate_then_filter :
    ∀ (file_path content : Str),
      (candidatesOf file_path content).map (fun t => t.2.2)
          = List.range (candidatesOf file_path content).length
      ∧ List.Pairwise (· < ·)
          ((keptCandidates file_path content).map (fun t => t.2.2)) := by
  intro file_path content
  have hidx : (candidatesOf file_path content).map (fun t => t.2.2)
      = List.range (candidatesOf file_path content).length := by
    unfold candidatesOf
    dsimp only
    split_ifs
    · unfold extract_mermaid_from_markdown
      rw [map_idx_enum_map _ _ (fun p => rfl), List.length_map, List.enum_length]
    · unfold extract_mermaid_from_html
      rw [map_idx_enum_map _ _ (fun p => rfl), List.length_map, List.enum_length]
    · unfold extract_mermaid_from_js
      rw [map_idx_enum_map _ _ (fun p => rfl), List.length_map, List.enum_length]
    · rfl
    · rfl
  refine ⟨hidx, ?_⟩
  have hsub : (keptCandidates file_path content).map (fun t => t.2.2)
      |>.Sublist ((candidatesOf file_path content).map (fun t => t.2.2)) :=
    List.Sublist.map _ (List.filter_sublist _)
  rw [hidx] at hsub
  exact List.Pairwise.sublist hsub (List.pairwise_lt_range _)

/-! ### C7: the walker's exclusion test -/

/-- Correctness of the substring search: `findSub` succeeds exactly when the
pattern occurs as a contiguous factor. -/
theorem findSub_isSome_iff (pat : Str) : ∀ s : Str,
    (findSub pat s).isSome = true ↔ ∃ a b : Str, s = a ++ pat ++ b := by
  intro s
  induction s with
  | nil =>
    cases pat with
    | nil => exact ⟨fun _ => ⟨[], [], rfl⟩, fun _ => by simp [findSub]⟩
    | cons pc pt =>
      constructor
      · intro h
        simp [findSub] at h
      · rintro ⟨a, b, hab⟩
        cases a with
        | nil => cases hab
        | cons x xs => cases hab
  | cons c cs ih =>
    by_cases hp : pat.isPrefixOf (c :: cs) = true
    · constructor
      · intro _
        obtain ⟨t, ht⟩ := (isPrefixOf_eq_true_iff pat (c :: cs)).mp hp
        exact ⟨[], t, by simp [ht]⟩
      · intro _
        simp [findSub, hp]
    · have hstep : (findSub pat (c :: cs)).isSome = (findSub pat cs).isSome := by
        simp only [findSub, if_neg hp]
        cases findSub pat cs <;> simp
      rw [hstep, ih]
      constructor
      · rintro ⟨a, b, rfl⟩
        exact ⟨c :: a, b, by simp⟩
      · rintro ⟨a, b, hab⟩
        cases a with
        | nil =>
          exact absurd ((isPrefixOf_eq_true_iff pat (c :: cs)).mpr ⟨b, by simpa using hab⟩) hp
        | cons x xs =>
          have hx : c = x ∧ cs = xs ++ pat ++ b := by
            have h' := hab
            simp only [List.cons_append, List.cons.injEq] at h'
            exact h'
          exact ⟨xs, b, hx.2⟩

theorem pyIn_iff (pat s : Str) :
    pyIn pat s = true ↔ ∃ a b : Str, s = a ++ pat ++ b :=
  findSub_isSome_iff pat s

theorem splitOnCh_ne_nil (c : Char) (s : Str) : splitOnCh c s ≠ [] := by
  cases s with
  | nil => simp [splitOnCh]
  | cons d rest =>
    by_cases hd : d = c
    · simp [splitOnCh, hd]
    · cases h : splitOnCh c rest with
      | nil => simp [splitOnCh, hd, h]
      | cons s0 ss => simp [splitOnCh, hd, h]

/-- The first field of a split is a prefix of the string. -/
theorem splitOnCh_head (c : Char) (s : Str) :
    ∃ b : Str, s = (splitOnCh c s).headD [] ++ b := by
  induction s with
  | nil => exact ⟨[], rfl⟩
  | cons d rest ih =>
    by_cases hd : d = c
    · exact ⟨d :: rest, by simp [splitOnCh, hd]⟩
    · obtain ⟨b, hb⟩ := ih
      cases hs : splitOnCh c rest with
      | nil => exact absurd hs (splitOnCh_ne_nil c rest)
      | cons s0 ss =>
        refine ⟨b, ?_⟩
        rw [hs] at hb
        simp only [splitOnCh, if_neg hd, hs, List.headD_cons] at hb ⊢
        simp [hb]

/-- Every field of a split is a contiguous factor of the string. -/
theorem splitOnCh_mem_decomp (c : Char) : ∀ (s seg : Str),
    seg ∈ splitOnCh c s → ∃ a b : Str, s = a ++ seg ++ b := by
  intro s
  induction s with
  | nil =>
    intro seg h
    simp [splitOnCh] at h
    exact ⟨[], [], by simp [h]⟩
  | cons d rest ih =>
    intro seg h
    by_cases hd : d = c
    · rw [splitOnCh, if_pos hd] at h
      rcases List.mem_cons.mp h with rfl | hm
      · exact ⟨[], d :: rest, by simp⟩
      · obtain ⟨a, b, hab⟩ := ih seg hm
        exact ⟨d :: a, b, by simp [hab]⟩
    · cases hs : splitOnCh c rest with
      | nil => exact absurd hs (splitOnCh_ne_nil c rest)
      | cons s0 ss =>
        rw [splitOnCh, if_neg hd, hs] at h
        rcases List.mem_cons.mp h with rfl | hm
        · obtain ⟨b, hb⟩ := splitOnCh_head c rest
          rw [hs] at hb
          simp only [List.headD_cons] at hb
          exact ⟨[], b, by simp [hb]⟩
        · have hmem : seg ∈ splitOnCh c rest := by
            rw [hs]; exact List.mem_cons.mpr (Or.inr hm)
          obtain ⟨a, b, hab⟩ := ih seg hmem
          exact ⟨d :: a, b, by simp [hab]⟩

/-- Counterexample to C7 as stated: `dist` is a substring of the segment
`distribution`, so the file is skipped although none of its path segments
equals an excluded name. -/
theorem shouldSkip_not_segment_based :
    shouldSkip "mermaid/distribution/a.md".data = true
    ∧ (splitOnCh '/' "mermaid/distribution/a.md".data).all
        (fun seg => !(excludedParts.contains seg)) = true := by decide

/-- C7 as amended.  The walker skips a file exactly when some excluded name
occurs as a substring of the whole path string; segment-wise matches are a
special case of this (so every file the claim wants skipped is skipped), but
the converse fails, as the counterexample shows. -/
theorem shouldSkip_iff_substring (path : Str) :
    (shouldSkip path = true ↔ ∃ part ∈ excludedParts, ∃ a b : Str, path = a ++ part ++ b)
    ∧ ((∃ seg ∈ splitOnCh '/' path, seg ∈ excludedParts) → shouldSkip path = true) := by
  constructor
  · constructor
    · intro h
      obtain ⟨part, hp, hin⟩ := List.any_eq_true.mp h
      exact ⟨part, hp, (pyIn_iff part path).mp hin⟩
    · rintro ⟨part, hp, a, b, rfl⟩
      exact List.any_eq_true.mpr ⟨part, hp, (pyIn_iff part _).mpr ⟨a, b, rfl⟩⟩
  · rintro ⟨seg, hseg, hex⟩
    obtain ⟨a, b, hab⟩ := splitOnCh_mem_decomp '/' path seg hseg
    exact List.any_eq_true.mpr ⟨seg, hex, (pyIn_iff seg path).mpr ⟨a, b, hab⟩⟩

/-- Witness for C7 (amended): a path with a `node_modules` segment is
skipped. -/
theorem shouldSkip_iff_substring_witness :
    shouldSkip "a/node_modules/b.js".data = true :=
  (shouldSkip_iff_substring "a/node_modules/b.js".data).2 (by decide)

/-! ### C8: the verifier's structural check -/

/-- Splitting distributes over concatenation at a separator occurrence. -/
theorem splitOnCh_append_cons (c : Char) (y : Str) : ∀ x : Str,
    splitOnCh c (x ++ c :: y) = splitOnCh c x ++ splitOnCh c y := by
  intro x
  induction x with
  | nil => simp [splitOnCh]
  | cons d x' ih =>
    by_cases hd : d = c
    · simp [splitOnCh, hd, ih, List.cons_append]
    · cases hs : splitOnCh c x' with
      | nil => exact absurd hs (splitOnCh_ne_nil c x')
      | cons s0 ss => simp [splitOnCh, hd, ih, hs, List.cons_append]

/-- Counterexample to C8 as stated: a fenced markdown block whose snippet is
the single comment line `// hi` is non-empty after trimming, is written as an
artifact by the pipeline, yet fails the verifier's check — all its body lines
start with `//`. -/
theorem comment_only_snippet_fails_check :
    runPipeline [("n.md".data, Except.ok "```mermaid\n// hi\n```".data)]
      = [("mermaid-samples/misc/n_md_000.mermaid".data,
          "// Source: n.md:L1\n// Type: misc\n// Generated by mermaid sample extractor\n\n// hi\n".data)]
    ∧ pyStrip "// hi".data = "// hi".data
    ∧ ("// hi".data : Str) ≠ []
    ∧ check_sample_structure
        "// Source: n.md:L1\n// Type: misc\n// Generated by mermaid sample extractor\n\n// hi\n".data
      = false := by decide

/-- C8 as amended.  Every artifact written by `save_mermaid_sample` passes the
verifier's structural check, provided the snippet has at least one line that
is non-empty after stripping and does not start with `//` (the two labelled
header markers are always present; the extra body-line condition is what the
counterexample forces). -/
theorem check_sample_structure_passes (code dtype src : Str) (idx : Nat)
    (hline : ∃ l ∈ splitOnCh '\n' code,
        "//".data.isPrefixOf (pyStrip l) = false ∧ pyStrip l ≠ []) :
    check_sample_structure (save_mermaid_sample code dtype src idx).2 = true := by
  have hcontent : (save_mermaid_sample code dtype src idx).2
      = ("// Source: ".data ++ src ++ "\n// Type: ".data ++ dtype
          ++ "\n// Generated by mermaid sample extractor\n".data) ++ '\n' :: (code ++ ['\n']) := by
    simp [save_mermaid_sample, List.append_assoc]
  have hs : pyIn "Source:".data ((save_mermaid_sample code dtype src idx).2) = true := by
    refine (pyIn_iff _ _).mpr ⟨"// ".data,
      " ".data ++ src ++ "\n// Type: ".data ++ dtype
        ++ "\n// Generated by mermaid sample extractor\n\n".data ++ code ++ "\n".data, ?_⟩
    simp [save_mermaid_sample, List.append_assoc]
  have ht : pyIn "Type:".data ((save_mermaid_sample code dtype src idx).2) = true := by
    refine (pyIn_iff _ _).mpr ⟨"// Source: ".data ++ src ++ "\n// ".data,
      " ".data ++ dtype
        ++ "\n// Generated by mermaid sample extractor\n\n".data ++ code ++ "\n".data, ?_⟩
    simp [save_mermaid_sample, List.append_assoc]
  obtain ⟨l, hl, hpref, hne⟩ := hline
  have hsplitNl : splitOnCh '\n' (code ++ ['\n']) = splitOnCh '\n' code ++ [[]] := by
    have h := splitOnCh_append_cons '\n' [] code
    simpa [splitOnCh] using h
  have hmeml : l ∈ splitOnCh '\n' ((save_mermaid_sample code dtype src idx).2) := by
    rw [hcontent, splitOnCh_append_cons, hsplitNl]
    exact List.mem_append.mpr (Or.inr (List.mem_append.mpr (Or.inl hl)))
  have hcnt : 0 < (List.filter
      (fun l => !("//".data.isPrefixOf (pyStrip l)) && !(pyStrip l).isEmpty)
      (splitOnCh '\n' ((save_mermaid_sample code dtype src idx).2))).length := by
    have hmf : l ∈ List.filter
        (fun l => !("//".data.isPrefixOf (pyStrip l)) && !(pyStrip l).isEmpty)
        (splitOnCh '\n' ((save_mermaid_sample code dtype src idx).2)) :=
      List.mem_filter.mpr ⟨hmeml, by simp [hpref, hne]⟩
    exact List.length_pos.mpr (List.ne_nil_of_mem hmf)
  simp only [check_sample_structure, hs, ht, Bool.true_and, Bool.and_true,
    decide_eq_true_eq]
  exact hcnt

/-- Witness for C8 (amended) at a concrete artifact. -/
theorem check_sample_structure_passes_witness :
    check_sample_structure (save_mermaid_sample "graph TD".data "flowchart".data
      "a.md:L1".data 0).2 = true :=
  check_sample_structure_passes "graph TD".data "flowchart".data "a.md:L1".data 0 (by decide)

/-! ### C9: unreadable files are skipped and the walk continues -/

/-- C9.  A file whose read fails produces no candidates and no artifacts, and
removing it from the corpus leaves the pipeline's output unchanged — no read
failure aborts the run.  (The logged warning is console output, outside this
embedding.) -/
theorem unreadable_file_skipped :
    (∀ (path : Str) (e : Unit), process_file path (Except.error e) = [])
    ∧ (∀ (pre post : List (Str × Except Unit Str)) (path : Str) (e : Unit),
        runPipeline (pre ++ (path, Except.error e) :: post) = runPipeline (pre ++ post)) := by
  have hpe : ∀ (p : Str) (e : Unit), processEntry (p, Except.error e) = [] := by
    intro p e
    unfold processEntry process_file
    cases extensionsList.contains (pySuffix p) && !shouldSkip p <;> simp
  refine ⟨fun path e => rfl, fun pre post path e => ?_⟩
  induction pre with
  | nil => simp [runPipeline, hpe]
  | cons q pre' ih => simp [runPipeline, ih]

/-! ### C10: quote kinds are not matched up by the script extractor -/

/-- C10.  On the content `"graph T' D"` the script extractor emits one
candidate whose body `graph T` stops at the single quote inside the
double-quoted literal: the closing quote character need not match the opening
one, and the body is not the full double-quoted literal `graph T' D`. -/
theorem js_extractor_mixed_quotes :
    extract_mermaid_from_js
        ([dqCh] ++ "graph T".data ++ [sqCh] ++ " D".data ++ [dqCh]) "f.js".data
      = [("graph T".data, "f.js:L1".data, 0)]
    ∧ ("graph T".data : Str) ≠ "graph T".data ++ [sqCh] ++ " D".data := by decide
